import Mathlib

/-!
Shallow embedding of `src/book_translation.py` (class `BookTranslator`).

Text is modelled as `List Char` (Python `len` is `List.length`, `str.split`
is `splitOnChar`, `str.strip` is `strip`, `sep.join` is `joinWith`).
The external translation service (an HTTP chat-completion call) is modelled
as a function `List Char → Option (List Char)`: `some t` is a successful
response whose extracted text is `t`, `none` is any raised exception
(timeout, malformed response, rejected request).  File-system and network
side effects are modelled by returning the data that would be written or
the error that would be raised.
-/

/-- Python `str` whitespace characters relevant to `str.strip()` (ASCII). -/
def isPySpace (c : Char) : Bool :=
  c == ' ' || c == '\t' || c == '\n' || c == '\r' || c == '\x0b' || c == '\x0c'

/-- Left part of Python `str.strip()`. -/
def lstrip (s : List Char) : List Char := s.dropWhile isPySpace

/-- Right part of Python `str.strip()`. -/
def rstrip (s : List Char) : List Char := (s.reverse.dropWhile isPySpace).reverse

/-- Python `str.strip()`: drop leading and trailing whitespace. -/
def strip (s : List Char) : List Char := rstrip (lstrip s)

/-- Python `text.split(sep)` for a one-character separator: the list of
pieces between occurrences of `sep`; on the empty string it returns one
empty piece, exactly as in Python. -/
def splitOnChar (sep : Char) : List Char → List (List Char)
  | [] => [[]]
  | c :: cs =>
    if c == sep then [] :: splitOnChar sep cs
    else
      match splitOnChar sep cs with
      | [] => [[c]]
      | r :: rs => (c :: r) :: rs

/-- Python `sep.join(pieces)`. -/
def joinWith (sep : List Char) : List (List Char) → List Char
  | [] => []
  | [s] => s
  | s :: t :: rest => s ++ sep ++ joinWith sep (t :: rest)

/-- Python `'\n'.join(pieces)`, the join used by `clean_text` and implicitly
undone by `split('\n')`. -/
def joinLines (pieces : List (List Char)) : List Char := joinWith ['\n'] pieces

/-- Python `needle in hay` for strings: substring containment. -/
def hasSub (needle : List Char) : List Char → Bool
  | [] => needle.isEmpty
  | c :: cs => needle.isPrefixOf (c :: cs) || hasSub needle cs

/-- Python `str.upper()` (ASCII case mapping suffices for the markers). -/
def upperStr (s : List Char) : List Char := s.map Char.toUpper

/-- Python `str.lower()`. -/
def lowerStr (s : List Char) : List Char := s.map Char.toLower

/-- Start-of-content marker searched for by `clean_text`. -/
def START_MARKER : List Char := "START OF THE PROJECT GUTENBERG".data

/-- End-of-content marker searched for by `clean_text`. -/
def END_MARKER : List Char := "END OF THE PROJECT GUTENBERG".data

/-- Boilerplate line marker rejected by `clean_text` (`line.startswith('***')`). -/
def BOILERPLATE : List Char := "***".data

/-- Whether a line contains a marker case-insensitively:
`marker in line.upper()` in the source. -/
def containsMarker (marker line : List Char) : Bool := hasSub marker (upperStr line)

/-- The keep condition of `clean_text`: `if line and not line.startswith('***')`,
applied to the already-stripped line. -/
def keepLine (line : List Char) : Bool := !line.isEmpty && !(BOILERPLATE.isPrefixOf line)

/-- Loop body of `BookTranslator.clean_text`: the boolean is `start_found`.
Before the start marker every line is discarded (the marker line included);
after it, each stripped line is collected when `keepLine` holds, and the
first line containing the end marker stops the scan. -/
def cleanLines : Bool → List (List Char) → List (List Char)
  | _, [] => []
  | false, l :: ls =>
    if containsMarker START_MARKER (strip l) then cleanLines true ls
    else cleanLines false ls
  | true, l :: ls =>
    if containsMarker END_MARKER (strip l) then []
    else if keepLine (strip l) then strip l :: cleanLines true ls
    else cleanLines true ls

/-- `BookTranslator.clean_text`: split on newlines, run the marker scan,
rejoin with newlines. -/
def clean_text (text : List Char) : List Char :=
  joinLines (cleanLines false (splitOnChar '\n' text))

/-- One iteration of the loop in `BookTranslator.split_text`.  The state is
`(chunks, current_chunk)`; the branch condition is the source's
`len(current_chunk) + len(paragraph) + 1 > max_chunk_size and current_chunk`. -/
def splitStep (maxSize : Nat) (st : List (List Char) × List Char) (p : List Char) :
    List (List Char) × List Char :=
  if st.2.length + p.length + 1 > maxSize ∧ st.2 ≠ [] then
    (st.1 ++ [strip st.2], p)
  else if st.2 ≠ [] then (st.1, st.2 ++ '\n' :: p)
  else (st.1, p)

/-- `BookTranslator.split_text`: fold the loop over `text.split('\n')` and
append the final non-empty buffer (stripped) as the last chunk. -/
def split_text (text : List Char) (maxSize : Nat) : List (List Char) :=
  let st := (splitOnChar '\n' text).foldl (splitStep maxSize) ([], [])
  if st.2 ≠ [] then st.1 ++ [strip st.2] else st.1

/-- `BookTranslator.translate_chunk`: the whole `try` block — the service
call plus extraction of `response.choices[0].message.content` — is the
`service` argument; `none` stands for any raised exception, in which case
the original chunk text is returned unchanged. -/
def translate_chunk (service : List Char → Option (List Char)) (text_chunk : List Char) :
    List Char :=
  match service text_chunk with
  | some translated_text => translated_text
  | none => text_chunk

/-- The per-chunk loop of `BookTranslator.translate_book`: one result is
appended for every chunk, in index order (the `time.sleep(1)` pacing has no
effect on the data and is not modelled). -/
def translateChunks (service : List Char → Option (List Char))
    (chunks : List (List Char)) : List (List Char) :=
  chunks.map (translate_chunk service)

/-- Final assembly of `BookTranslator.translate_book`:
`'\n\n'.join(translated_chunks)`. -/
def assembleBook (translated_chunks : List (List Char)) : List Char :=
  joinWith ['\n', '\n'] translated_chunks

/-- `BookTranslator.translate_book` after the download: clean, split with
the default `max_chunk_size = 3000`, translate each chunk, join with a
blank-line separator. -/
def translate_book (service : List Char → Option (List Char)) (book_content : List Char) :
    List Char :=
  assembleBook (translateChunks service (split_text (clean_text book_content) 3000))

/-- `BookTranslator.SUPPORTED_LANGUAGES`, an association list in the
source's insertion order. -/
def SUPPORTED_LANGUAGES : List (List Char × List Char) :=
  [("indonesian".data, "Indonesian".data),
   ("filipino".data, "Filipino".data),
   ("tamil".data, "Tamil".data),
   ("thai".data, "Thai".data),
   ("vietnamese".data, "Vietnamese".data)]

/-- The keys of `SUPPORTED_LANGUAGES`, as listed in the `ValueError` message. -/
def supportedKeys : List (List Char) := SUPPORTED_LANGUAGES.map Prod.fst

/-- The two `ValueError`s `BookTranslator.__init__` can raise.  The
`unsupportedLanguage` error carries the offending language (as in the
message `f"Unsupported language: {target_language}"`) and the list of valid
choices (`list(self.SUPPORTED_LANGUAGES.keys())`). -/
inductive InitError
  | missingApiKey
  | unsupportedLanguage (given : List Char) (supported : List (List Char))
deriving DecidableEq

/-- The state `BookTranslator.__init__` establishes on success.  The OpenAI
client construction performs no network call; network traffic happens only
in `download_book` and `translate_chunk`, both of which require this
configuration to exist. -/
structure TranslatorConfig where
  apiKey : List Char
  targetLanguage : List Char
deriving DecidableEq

/-- `BookTranslator.__init__`: reject an empty API key, lower-case the
target language, and reject it (with the valid choices) when it is not a
key of `SUPPORTED_LANGUAGES` — all before any client is used. -/
def BookTranslator.init (apiKey targetLanguage : List Char) :
    Except InitError TranslatorConfig :=
  if apiKey = [] then .error .missingApiKey
  else if supportedKeys.contains (lowerStr targetLanguage) then
    .ok ⟨apiKey, lowerStr targetLanguage⟩
  else .error (.unsupportedLanguage targetLanguage supportedKeys)

/-- `self.SUPPORTED_LANGUAGES[self.target_language]`, the display name used
in the output header (total here via a default; `save_translation` is only
reached with a validated key). -/
def langDisplay (key : List Char) : List Char := (SUPPORTED_LANGUAGES.lookup key).getD []

/-- The first header line written by `save_translation`, without its
trailing newline. -/
def headerTitle (key : List Char) : List Char :=
  "The Art of Public Speaking - Translated to ".data ++ langDisplay key

/-- The default output filename of `save_translation`:
`f"the_art_of_public_speaking_translated_{self.target_language}.txt"`. -/
def defaultFilename (key : List Char) : List Char :=
  "the_art_of_public_speaking_translated_".data ++ key ++ ".txt".data

/-- The bytes `save_translation` writes: the three `f.write` calls —
title line, sixty `=` signs with a blank line, then the body. -/
def savedContent (key body : List Char) : List Char :=
  (headerTitle key ++ ['\n']) ++ (List.replicate 60 '=' ++ "\n\n".data) ++ body

/-- `BookTranslator.save_translation`, modelled as the pair
(path written to, content written).  A `none` or empty filename (Python
`if not filename`) selects the default name; the path joins it under the
`output` directory. -/
def save_translation (key translated_text : List Char) (filename : Option (List Char)) :
    List Char × List Char :=
  let fname := match filename with
    | some f => if f.isEmpty then defaultFilename key else f
    | none => defaultFilename key
  ("output/".data ++ fname, savedContent key translated_text)

/-- A line as produced by `clean_text`: non-empty and already stripped. -/
def CleanLine (l : List Char) : Prop := l ≠ [] ∧ strip l = l

/-- A CleanDocument in the spec's sense: every line of the text is
non-empty and stripped of leading and trailing whitespace. -/
def CleanDoc (text : List Char) : Prop := ∀ l ∈ splitOnChar '\n' text, CleanLine l

instance (l : List Char) : Decidable (CleanLine l) := by
  unfold CleanLine; infer_instance

instance (t : List Char) : Decidable (CleanDoc t) := by
  unfold CleanDoc; infer_instance

/-- Recursive form of the `split_text` loop once the buffer is
non-empty: `cur` is the current buffer, the remaining paragraphs are
consumed one at a time. -/
def chunkGroups (maxSize : Nat) (cur : List Char) : List (List Char) → List (List Char)
  | [] => [strip cur]
  | p :: ps =>
    if cur.length + p.length + 1 > maxSize then strip cur :: chunkGroups maxSize p ps
    else chunkGroups maxSize (cur ++ '\n' :: p) ps

/-- Spec-level Normalizer, written from the spec's wording (for comparison
with the source-level `cleanLines`): discard all lines until a line
containing the case-insensitive start marker is seen and discard that line
too; thereafter strip each line, stop at the first line containing the
case-insensitive end marker, and keep the non-empty lines that do not begin
with the boilerplate prefix marker. -/
def normSpec (ls : List (List Char)) : List (List Char) :=
  match ls.dropWhile (fun l => !containsMarker START_MARKER (strip l)) with
  | [] => []
  | _ :: rest =>
    ((rest.map strip).takeWhile (fun l => !containsMarker END_MARKER l)).filter keepLine

/-- The spec's Normalizer example input, its six lines joined by newlines. -/
def exampleRaw : List Char :=
  "preamble\n*** START OF THE PROJECT GUTENBERG ***\nHello\nWorld\n*** END OF THE PROJECT GUTENBERG ***\ntrailer".data

/-! Helper lemmas about `splitOnChar`, `joinWith` and `strip`. -/

theorem splitOnChar_ne_nil (sep : Char) (s : List Char) : splitOnChar sep s ≠ [] := by
  cases s with
  | nil => simp [splitOnChar]
  | cons c cs =>
    simp only [splitOnChar]
    split
    · simp
    · split <;> simp

theorem joinWith_cons (sep : List Char) (s : List Char) (rest : List (List Char))
    (h : rest ≠ []) : joinWith sep (s :: rest) = s ++ sep ++ joinWith sep rest := by
  cases rest with
  | nil => exact absurd rfl h
  | cons t r => rfl

theorem joinWith_splitOnChar (sep : Char) (s : List Char) :
    joinWith [sep] (splitOnChar sep s) = s := by
  induction s with
  | nil => rfl
  | cons c cs ih =>
    simp only [splitOnChar]
    by_cases hc : c == sep
    · rw [if_pos hc, joinWith_cons [sep] [] (splitOnChar sep cs) (splitOnChar_ne_nil sep cs),
        ih]
      have hce : c = sep := by simpa using hc
      simp [hce]
    · rw [if_neg hc]
      rcases e : splitOnChar sep cs with _ | ⟨r, rs⟩
      · exact absurd e (splitOnChar_ne_nil sep cs)
      · rw [e] at ih
        cases rs with
        | nil =>
          show joinWith [sep] [c :: r] = c :: cs
          simp only [joinWith] at ih ⊢
          rw [ih]
        | cons t rs =>
          show joinWith [sep] ((c :: r) :: t :: rs) = c :: cs
          rw [joinWith_cons [sep] (c :: r) (t :: rs) (by simp)]
          rw [joinWith_cons [sep] r (t :: rs) (by simp)] at ih
          rw [← ih]
          simp

theorem splitOnChar_append (sep : Char) (xs ys : List Char) :
    splitOnChar sep (xs ++ sep :: ys) = splitOnChar sep xs ++ splitOnChar sep ys := by
  induction xs with
  | nil => simp [splitOnChar]
  | cons c cs ih =>
    by_cases hc : c == sep
    · simp only [List.cons_append, splitOnChar, if_pos hc, List.append_eq, ih]
    · simp only [List.cons_append, splitOnChar, if_neg hc, List.append_eq]
      rw [ih]
      rcases e : splitOnChar sep cs with _ | ⟨r, rs⟩
      · exact absurd e (splitOnChar_ne_nil sep cs)
      · simp

theorem splitOnChar_sepFree (sep : Char) (s : List Char) (h : sep ∉ s) :
    splitOnChar sep s = [s] := by
  induction s with
  | nil => rfl
  | cons c cs ih =>
    have hc : ¬(c == sep) := by
      simp only [beq_iff_eq]
      intro he
      exact h (by simp [he])
    simp only [splitOnChar, if_neg hc, ih (fun hm => h (by simp [hm]))]

theorem splitOnChar_sep_not_mem (sep : Char) (s : List Char) :
    ∀ piece ∈ splitOnChar sep s, sep ∉ piece := by
  induction s with
  | nil =>
    intro piece hp
    simp only [splitOnChar, List.mem_singleton] at hp
    simp [hp]
  | cons c cs ih =>
    intro piece hp
    simp only [splitOnChar] at hp
    by_cases hc : c == sep
    · rw [if_pos hc] at hp
      rcases List.mem_cons.mp hp with rfl | hp
      · simp
      · exact ih piece hp
    · rw [if_neg hc] at hp
      rcases e : splitOnChar sep cs with _ | ⟨r, rs⟩
      · exact absurd e (splitOnChar_ne_nil sep cs)
      · rw [e] at hp
        have hr : r ∈ splitOnChar sep cs := by rw [e]; simp
        rcases List.mem_cons.mp hp with rfl | hp
        · intro hmem
          have hcc : c ≠ sep := by simpa using hc
          rcases List.mem_cons.mp hmem with he | hmem
          · exact hcc he.symm
          · exact ih r hr hmem
        · have hpc : piece ∈ splitOnChar sep cs := by rw [e]; simp [hp]
          exact ih piece hpc

theorem lstrip_eq_self (s : List Char) (h : strip s = s) : lstrip s = s := by
  have hsuf : lstrip s <:+ s := List.dropWhile_suffix _
  refine hsuf.eq_of_length ?_
  have h1 : (strip s).length ≤ (lstrip s).length := by
    show (rstrip (lstrip s)).length ≤ (lstrip s).length
    unfold rstrip
    rw [List.length_reverse]
    calc ((lstrip s).reverse.dropWhile isPySpace).length
        ≤ (lstrip s).reverse.length := (List.dropWhile_suffix _).length_le
      _ = (lstrip s).length := List.length_reverse _
  have h2 : (lstrip s).length ≤ s.length := hsuf.length_le
  rw [h] at h1
  omega

theorem rstrip_eq_self (s : List Char) (h : strip s = s) : rstrip s = s := by
  calc rstrip s = rstrip (lstrip s) := by rw [lstrip_eq_self s h]
    _ = s := h

theorem not_space_of_dropWhile_cons (c : Char) (t : List Char)
    (h : List.dropWhile isPySpace (c :: t) = c :: t) : isPySpace c = false := by
  cases hp : isPySpace c
  · rfl
  · exfalso
    rw [List.dropWhile_cons, if_pos hp] at h
    have h1 := congrArg List.length h
    have h2 : (t.dropWhile isPySpace).length ≤ t.length :=
      (List.dropWhile_suffix _).length_le
    simp only [List.length_cons] at h1
    omega

theorem head_not_space (c : Char) (t : List Char) (h : strip (c :: t) = c :: t) :
    isPySpace c = false :=
  not_space_of_dropWhile_cons c t (lstrip_eq_self (c :: t) h)

theorem revhead_not_space (s : List Char) (h : strip s = s) (c : Char) (t : List Char)
    (he : s.reverse = c :: t) : isPySpace c = false := by
  have hr := rstrip_eq_self s h
  have h2 : s.reverse.dropWhile isPySpace = s.reverse := by
    have h3 := congrArg List.reverse hr
    unfold rstrip at h3
    rw [List.reverse_reverse] at h3
    rw [h3]
  rw [he] at h2
  exact not_space_of_dropWhile_cons c t h2

theorem strip_append_line (a b : List Char) (ha : CleanLine a) (hb : CleanLine b) :
    strip (a ++ '\n' :: b) = a ++ '\n' :: b := by
  obtain ⟨hane, hastrip⟩ := ha
  obtain ⟨hbne, hbstrip⟩ := hb
  obtain ⟨c, t, ea⟩ := List.exists_cons_of_ne_nil hane
  obtain ⟨d, u, eb⟩ := List.exists_cons_of_ne_nil
    (fun hrev => hbne (by simpa using congrArg List.reverse hrev) : b.reverse ≠ [])
  have hc : isPySpace c = false := head_not_space c t (ea ▸ hastrip)
  have hd : isPySpace d = false := revhead_not_space b hbstrip d u eb
  have hxrev : (a ++ '\n' :: b).reverse = d :: (u ++ '\n' :: a.reverse) := by
    rw [show ('\n' :: b) = ['\n'] ++ b from rfl, List.reverse_append, List.reverse_append]
    simp [eb]
  have hl : lstrip (a ++ '\n' :: b) = a ++ '\n' :: b := by
    rw [ea]
    show List.dropWhile isPySpace (c :: (t ++ '\n' :: b)) = c :: (t ++ '\n' :: b)
    rw [List.dropWhile_cons, hc]
    simp
  have hr : rstrip (a ++ '\n' :: b) = a ++ '\n' :: b := by
    unfold rstrip
    rw [hxrev, List.dropWhile_cons, hd]
    simp only [Bool.false_eq_true, if_false]
    rw [← hxrev, List.reverse_reverse]
  calc strip (a ++ '\n' :: b) = rstrip (lstrip (a ++ '\n' :: b)) := rfl
    _ = rstrip (a ++ '\n' :: b) := by rw [hl]
    _ = a ++ '\n' :: b := hr

theorem cleanLine_append (a b : List Char) (ha : CleanLine a) (hb : CleanLine b) :
    CleanLine (a ++ '\n' :: b) := by
  refine ⟨?_, strip_append_line a b ha hb⟩
  obtain ⟨c, t, ea⟩ := List.exists_cons_of_ne_nil ha.1
  rw [ea]
  simp

theorem chunkGroups_ne_nil (maxSize : Nat) (cur : List Char) (ps : List (List Char)) :
    chunkGroups maxSize cur ps ≠ [] := by
  induction ps generalizing cur with
  | nil => simp [chunkGroups]
  | cons p ps ih =>
    simp only [chunkGroups]
    split
    · simp
    · exact ih _

theorem joinLines_glue (a b : List Char) (ps : List (List Char)) :
    joinLines ((a ++ '\n' :: b) :: ps) = joinLines (a :: b :: ps) := by
  cases ps with
  | nil => simp [joinLines, joinWith]
  | cons q qs =>
    unfold joinLines
    rw [joinWith_cons ['\n'] (a ++ '\n' :: b) (q :: qs) (by simp),
      joinWith_cons ['\n'] a (b :: q :: qs) (by simp),
      joinWith_cons ['\n'] b (q :: qs) (by simp)]
    simp

theorem chunkGroups_join (maxSize : Nat) (ps : List (List Char)) (cur : List Char)
    (hcur : CleanLine cur) (hps : ∀ p ∈ ps, CleanLine p) :
    joinLines (chunkGroups maxSize cur ps) = joinLines (cur :: ps) := by
  induction ps generalizing cur with
  | nil =>
    show joinLines [strip cur] = joinLines [cur]
    rw [hcur.2]
  | cons p ps ih =>
    have hp : CleanLine p := hps p (by simp)
    have hps' : ∀ q ∈ ps, CleanLine q := fun q hq => hps q (by simp [hq])
    show joinLines (if cur.length + p.length + 1 > maxSize then
        strip cur :: chunkGroups maxSize p ps
      else chunkGroups maxSize (cur ++ '\n' :: p) ps) = joinLines (cur :: p :: ps)
    split
    · unfold joinLines
      rw [joinWith_cons ['\n'] (strip cur) (chunkGroups maxSize p ps)
          (chunkGroups_ne_nil maxSize p ps), hcur.2]
      have := ih p hp hps'
      unfold joinLines at this
      rw [this, joinWith_cons ['\n'] cur (p :: ps) (by simp)]
    · rw [ih (cur ++ '\n' :: p) (cleanLine_append cur p hcur hp) hps']
      exact joinLines_glue cur p (ps)

theorem chunkGroups_size (maxSize : Nat) (ps : List (List Char)) (cur : List Char)
    (L : List (List Char)) (hcur : CleanLine cur) (hps : ∀ p ∈ ps, CleanLine p)
    (hcurL : cur ∈ L ∨ cur.length ≤ maxSize) (hpsL : ∀ p ∈ ps, p ∈ L) :
    ∀ c ∈ chunkGroups maxSize cur ps,
      c.length ≤ maxSize ∨ (c ∈ L ∧ maxSize < c.length) := by
  induction ps generalizing cur with
  | nil =>
    intro c hc
    simp only [chunkGroups, List.mem_singleton] at hc
    subst hc
    rw [hcur.2]
    rcases hcurL with h | h
    · by_cases hlen : cur.length ≤ maxSize
      · exact Or.inl hlen
      · exact Or.inr ⟨h, by omega⟩
    · exact Or.inl h
  | cons p ps ih =>
    intro c hc
    have hp : CleanLine p := hps p (by simp)
    have hps' : ∀ q ∈ ps, CleanLine q := fun q hq => hps q (by simp [hq])
    have hpsL' : ∀ q ∈ ps, q ∈ L := fun q hq => hpsL q (by simp [hq])
    simp only [chunkGroups] at hc
    by_cases hcond : cur.length + p.length + 1 > maxSize
    · rw [if_pos hcond] at hc
      rcases List.mem_cons.mp hc with rfl | hc
      · rw [hcur.2]
        rcases hcurL with h | h
        · by_cases hlen : cur.length ≤ maxSize
          · exact Or.inl hlen
          · exact Or.inr ⟨h, by omega⟩
        · exact Or.inl h
      · exact ih p hp hps' (Or.inl (hpsL p (by simp))) hpsL' c hc
    · rw [if_neg hcond] at hc
      refine ih (cur ++ '\n' :: p) (cleanLine_append cur p hcur hp) hps' ?_ hpsL' c hc
      right
      simp only [List.length_append, List.length_cons]
      omega

theorem chunkGroups_lines (maxSize : Nat) (ps : List (List Char)) (cur : List Char)
    (hcur : CleanLine cur) (hps : ∀ p ∈ ps, CleanLine p ∧ '\n' ∉ p) :
    ((chunkGroups maxSize cur ps).map (splitOnChar '\n')).flatten =
      splitOnChar '\n' cur ++ ps := by
  induction ps generalizing cur with
  | nil =>
    show ([strip cur].map (splitOnChar '\n')).flatten = splitOnChar '\n' cur ++ []
    simp [hcur.2]
  | cons p ps ih =>
    have hp : CleanLine p := (hps p (by simp)).1
    have hpfree : '\n' ∉ p := (hps p (by simp)).2
    have hps' : ∀ q ∈ ps, CleanLine q ∧ '\n' ∉ q := fun q hq => hps q (by simp [hq])
    show (((if cur.length + p.length + 1 > maxSize then
        strip cur :: chunkGroups maxSize p ps
      else chunkGroups maxSize (cur ++ '\n' :: p) ps)).map (splitOnChar '\n')).flatten =
      splitOnChar '\n' cur ++ p :: ps
    split
    · rw [List.map_cons, List.flatten_cons, ih p hp hps', hcur.2,
        splitOnChar_sepFree '\n' p hpfree]
      simp
    · rw [ih (cur ++ '\n' :: p) (cleanLine_append cur p hcur hp) hps',
        splitOnChar_append '\n' cur p, splitOnChar_sepFree '\n' p hpfree]
      simp

theorem foldl_splitStep (maxSize : Nat) (ps : List (List Char)) (chunks : List (List Char))
    (cur : List Char) (hcur : cur ≠ []) (hps : ∀ p ∈ ps, p ≠ []) :
    (if (ps.foldl (splitStep maxSize) (chunks, cur)).2 ≠ [] then
      (ps.foldl (splitStep maxSize) (chunks, cur)).1 ++
        [strip (ps.foldl (splitStep maxSize) (chunks, cur)).2]
    else (ps.foldl (splitStep maxSize) (chunks, cur)).1)
    = chunks ++ chunkGroups maxSize cur ps := by
  induction ps generalizing chunks cur with
  | nil =>
    show (if cur ≠ [] then chunks ++ [strip cur] else chunks) = chunks ++ [strip cur]
    rw [if_pos hcur]
  | cons p ps ih =>
    have hp : p ≠ [] := hps p (by simp)
    have hps' : ∀ q ∈ ps, q ≠ [] := fun q hq => hps q (by simp [hq])
    simp only [List.foldl_cons]
    by_cases hcond : cur.length + p.length + 1 > maxSize
    · have hstep : splitStep maxSize (chunks, cur) p = (chunks ++ [strip cur], p) := by
        simp [splitStep, hcond, hcur]
      rw [hstep, ih (chunks ++ [strip cur]) p hp hps']
      show chunks ++ [strip cur] ++ chunkGroups maxSize p ps =
        chunks ++ chunkGroups maxSize cur (p :: ps)
      simp only [chunkGroups, if_pos hcond]
      simp
    · have hstep : splitStep maxSize (chunks, cur) p = (chunks, cur ++ '\n' :: p) := by
        simp [splitStep, hcond, hcur]
      rw [hstep, ih chunks (cur ++ '\n' :: p) (by simp) hps']
      show chunks ++ chunkGroups maxSize (cur ++ '\n' :: p) ps =
        chunks ++ chunkGroups maxSize cur (p :: ps)
      simp only [chunkGroups, if_neg hcond]

theorem split_text_eq_chunkGroups (text : List Char) (maxSize : Nat) (l : List Char)
    (ls : List (List Char)) (hsplit : splitOnChar '\n' text = l :: ls)
    (hl : l ≠ []) (hls : ∀ p ∈ ls, p ≠ []) :
    split_text text maxSize = chunkGroups maxSize l ls := by
  show (if ((splitOnChar '\n' text).foldl (splitStep maxSize) ([], [])).2 ≠ [] then
      ((splitOnChar '\n' text).foldl (splitStep maxSize) ([], [])).1 ++
        [strip ((splitOnChar '\n' text).foldl (splitStep maxSize) ([], [])).2]
    else ((splitOnChar '\n' text).foldl (splitStep maxSize) ([], [])).1) =
    chunkGroups maxSize l ls
  rw [hsplit]
  simp only [List.foldl_cons]
  have h1 : splitStep maxSize (([] : List (List Char)), ([] : List Char)) l = ([], l) := by
    simp [splitStep]
  rw [h1]
  simpa using foldl_splitStep maxSize ls [] l hl hls

theorem split_text_nil (maxSize : Nat) : split_text [] maxSize = [] := by
  show (if ((splitOnChar '\n' []).foldl (splitStep maxSize) ([], [])).2 ≠ [] then
      ((splitOnChar '\n' []).foldl (splitStep maxSize) ([], [])).1 ++
        [strip ((splitOnChar '\n' []).foldl (splitStep maxSize) ([], [])).2]
    else ((splitOnChar '\n' []).foldl (splitStep maxSize) ([], [])).1) = []
  simp [splitOnChar, splitStep]

/-- C1: for every CleanDocument (a string whose lines are non-empty and
stripped), joining the chunks returned by `split_text` with the newline
separator reproduces the original text exactly — no line is duplicated or
dropped. -/
theorem c1_chunk_roundtrip (text : List Char) (maxSize : Nat) (h : CleanDoc text) :
    joinLines (split_text text maxSize) = text := by
  rcases e : splitOnChar '\n' text with _ | ⟨l, ls⟩
  · exact absurd e (splitOnChar_ne_nil '\n' text)
  · have hl : CleanLine l := h l (by rw [e]; simp)
    have hls : ∀ p ∈ ls, CleanLine p := fun p hp => h p (by rw [e]; simp [hp])
    rw [split_text_eq_chunkGroups text maxSize l ls e hl.1 (fun p hp => (hls p hp).1)]
    rw [chunkGroups_join maxSize ls l hl hls, ← e]
    exact joinWith_splitOnChar '\n' text

/-- Witness for C1 at a concrete clean document. -/
theorem c1_chunk_roundtrip_witness :
    joinLines (split_text ("ab\ncd".data) 3) = "ab\ncd".data :=
  c1_chunk_roundtrip ("ab\ncd".data) 3 (by decide)

/-- C3: for every CleanDocument and every `maxSize`, each chunk produced by
`split_text` has length at most `maxSize`, except that an oversized chunk
is necessarily a single source line whose own length exceeds `maxSize`
(lines are never split). -/
theorem c3_chunk_size_bound (text : List Char) (maxSize : Nat) (h : CleanDoc text) :
    ∀ c ∈ split_text text maxSize,
      c.length ≤ maxSize ∨ (c ∈ splitOnChar '\n' text ∧ maxSize < c.length) := by
  rcases e : splitOnChar '\n' text with _ | ⟨l, ls⟩
  · exact absurd e (splitOnChar_ne_nil '\n' text)
  · have hl : CleanLine l := h l (by rw [e]; simp)
    have hls : ∀ p ∈ ls, CleanLine p := fun p hp => h p (by rw [e]; simp [hp])
    rw [split_text_eq_chunkGroups text maxSize l ls e hl.1 (fun p hp => (hls p hp).1)]
    refine chunkGroups_size maxSize ls l (l :: ls) hl hls ?_ ?_
    · left; simp
    · intro p hp; simp [hp]

/-- Witness for C3: the first line is longer than the bound and is emitted
as its own oversized chunk, which is a source line. -/
theorem c3_chunk_size_bound_witness :
    ("abcdef".data).length ≤ 3 ∨
      ("abcdef".data ∈ splitOnChar '\n' ("abcdef\ncd".data) ∧ 3 < ("abcdef".data).length) :=
  c3_chunk_size_bound ("abcdef\ncd".data) 3 (by decide) ("abcdef".data) (by decide)

/-- C7: `split_text` is deterministic — equal inputs give identical chunk
sequences — and order-stable: concatenating the lines of the chunks, in
chunk order, gives back exactly the source lines in source order. -/
theorem c7_deterministic_ordered :
    (∀ (t₁ t₂ : List Char) (m₁ m₂ : Nat), t₁ = t₂ → m₁ = m₂ →
      split_text t₁ m₁ = split_text t₂ m₂) ∧
    (∀ (text : List Char) (maxSize : Nat), CleanDoc text →
      ((split_text text maxSize).map (splitOnChar '\n')).flatten =
        splitOnChar '\n' text) := by
  constructor
  · intro t₁ t₂ m₁ m₂ ht hm
    rw [ht, hm]
  · intro text maxSize h
    rcases e : splitOnChar '\n' text with _ | ⟨l, ls⟩
    · exact absurd e (splitOnChar_ne_nil '\n' text)
    · have hl : CleanLine l := h l (by rw [e]; simp)
      have hls : ∀ p ∈ ls, CleanLine p := fun p hp => h p (by rw [e]; simp [hp])
      have hfree : ∀ p ∈ ls, '\n' ∉ p := fun p hp =>
        splitOnChar_sep_not_mem '\n' text p (by rw [e]; simp [hp])
      have hlfree : '\n' ∉ l := splitOnChar_sep_not_mem '\n' text l (by rw [e]; simp)
      rw [split_text_eq_chunkGroups text maxSize l ls e hl.1 (fun p hp => (hls p hp).1)]
      rw [chunkGroups_lines maxSize ls l hl (fun p hp => ⟨hls p hp, hfree p hp⟩)]
      rw [splitOnChar_sepFree '\n' l hlfree]
      simp

/-- Witness for C7: the two parts applied at concrete inputs. -/
theorem c7_deterministic_ordered_witness :
    split_text ("ab\ncd".data) 3 = split_text ("ab\ncd".data) 3 ∧
    ((split_text ("ab\ncd".data) 3).map (splitOnChar '\n')).flatten =
      splitOnChar '\n' ("ab\ncd".data) :=
  ⟨c7_deterministic_ordered.1 ("ab\ncd".data) ("ab\ncd".data) 3 3 rfl rfl,
   c7_deterministic_ordered.2 ("ab\ncd".data) 3 (by decide)⟩

/-- C10: on the empty string `split_text` returns the empty list of chunks
(not a list containing one empty chunk), and joining zero translation
results yields the empty translated document. -/
theorem c10_empty_document :
    (∀ maxSize : Nat, split_text [] maxSize = []) ∧ assembleBook [] = [] :=
  ⟨split_text_nil, rfl⟩

theorem cleanLines_true_eq (ls : List (List Char)) :
    cleanLines true ls =
      ((ls.map strip).takeWhile (fun l => !containsMarker END_MARKER l)).filter keepLine := by
  induction ls with
  | nil => rfl
  | cons l ls ih =>
    show (if containsMarker END_MARKER (strip l) then []
      else if keepLine (strip l) then strip l :: cleanLines true ls
      else cleanLines true ls) = _
    simp only [List.map_cons, List.takeWhile_cons]
    by_cases hend : containsMarker END_MARKER (strip l)
    · simp [hend]
    · by_cases hkeep : keepLine (strip l)
      · simp [hend, hkeep, ih, List.filter_cons]
      · simp [hend, hkeep, ih, List.filter_cons]

theorem cleanLines_false_eq (ls : List (List Char)) :
    cleanLines false ls =
      (match ls.dropWhile (fun l => !containsMarker START_MARKER (strip l)) with
        | [] => []
        | _ :: rest => cleanLines true rest) := by
  induction ls with
  | nil => rfl
  | cons l ls ih =>
    show (if containsMarker START_MARKER (strip l) then cleanLines true ls
      else cleanLines false ls) = _
    rw [List.dropWhile_cons]
    by_cases hstart : containsMarker START_MARKER (strip l)
    · rw [if_pos hstart]
      have : (!containsMarker START_MARKER (strip l)) = false := by simpa using hstart
      rw [this]
      simp
    · rw [if_neg hstart]
      have : (!containsMarker START_MARKER (strip l)) = true := by simpa using hstart
      rw [this]
      simpa using ih

/-- C4: `clean_text` equals the spec-level Normalizer pipeline — discard
up to and including the first line containing the case-insensitive start
marker, then collect the stripped, non-empty, non-boilerplate lines until
the first line containing the case-insensitive end marker — and on the
spec's example input the result is exactly the two content lines. -/
theorem c4_normalizer :
    (∀ text : List Char, clean_text text = joinLines (normSpec (splitOnChar '\n' text))) ∧
    clean_text exampleRaw = "Hello\nWorld".data := by
  constructor
  · intro text
    show joinLines (cleanLines false (splitOnChar '\n' text)) = _
    rw [cleanLines_false_eq]
    unfold normSpec
    rcases (splitOnChar '\n' text).dropWhile (fun l => !containsMarker START_MARKER (strip l))
      with _ | ⟨m, rest⟩
    · rfl
    · show joinLines (cleanLines true rest) =
        joinLines (((rest.map strip).takeWhile
          (fun l => !containsMarker END_MARKER l)).filter keepLine)
      rw [cleanLines_true_eq]
  · decide

/-- C8: when no line of the input contains the case-insensitive start
marker, `clean_text` returns the empty string (and, being a total
function, raises nothing). -/
theorem c8_missing_start (text : List Char)
    (h : ∀ l ∈ splitOnChar '\n' text, containsMarker START_MARKER (strip l) = false) :
    clean_text text = [] := by
  show joinLines (cleanLines false (splitOnChar '\n' text)) = []
  rw [cleanLines_false_eq]
  have hall : (splitOnChar '\n' text).dropWhile
      (fun l => !containsMarker START_MARKER (strip l)) = [] := by
    rw [List.dropWhile_eq_nil_iff]
    intro l hl
    simp [h l hl]
  rw [hall]
  rfl

/-- Witness for C8 at a concrete marker-free input. -/
theorem c8_missing_start_witness : clean_text ("abc\ndef".data) = [] :=
  c8_missing_start ("abc\ndef".data) (by decide)

/-- C2: when the service call raises (returns `none` in the model),
`translate_chunk` returns the original chunk text unchanged and never
raises, and `translate_book`'s loop produces exactly one result per chunk,
so the assembled document has the full number of entries. -/
theorem c2_fallback_policy :
    (∀ (service : List Char → Option (List Char)) (text_chunk : List Char),
      service text_chunk = none → translate_chunk service text_chunk = text_chunk) ∧
    (∀ (service : List Char → Option (List Char)) (chunks : List (List Char)),
      (translateChunks service chunks).length = chunks.length) := by
  constructor
  · intro service text_chunk hfail
    unfold translate_chunk
    rw [hfail]
  · intro service chunks
    simp [translateChunks]

/-- Witness for C2: a service that always fails leaves the chunk as is. -/
theorem c2_fallback_policy_witness :
    translate_chunk (fun _ => none) ("abc".data) = "abc".data :=
  c2_fallback_policy.1 (fun _ => none) ("abc".data) rfl

/-- C5: `translate_book` joins the per-chunk results with the fixed
blank-line separator; the result at index `i` is the translation of the
chunk at index `i` (original chunk-index order); and on the spec's example
service `s ↦ "[TH]" ++ s` with chunks `"A"` and `"B"` the assembled
document is `"[TH]A\n\n[TH]B"`. -/
theorem c5_ordered_reassembly :
    (∀ (service : List Char → Option (List Char)) (book_content : List Char),
      translate_book service book_content =
        assembleBook (translateChunks service (split_text (clean_text book_content) 3000))) ∧
    (∀ (service : List Char → Option (List Char)) (chunks : List (List Char)) (i : Nat),
      (translateChunks service chunks)[i]? =
        (chunks[i]?).map (translate_chunk service)) ∧
    assembleBook (translateChunks (fun s => some ("[TH]".data ++ s))
      ["A".data, "B".data]) = "[TH]A\n\n[TH]B".data := by
  refine ⟨fun _ _ => rfl, fun service chunks i => ?_, by decide⟩
  simp [translateChunks]

/-- C6: a target language whose lower-casing is not a supported key makes
`BookTranslator.__init__` raise the `ValueError` that lists the valid
choices; the error is produced by the constructor, before any client or
network call exists. -/
theorem c6_unsupported_language (apiKey lang : List Char) (hkey : apiKey ≠ [])
    (h : lowerStr lang ∉ supportedKeys) :
    BookTranslator.init apiKey lang =
      Except.error (InitError.unsupportedLanguage lang supportedKeys) := by
  unfold BookTranslator.init
  rw [if_neg hkey]
  have hc : supportedKeys.contains (lowerStr lang) = false := by simpa using h
  rw [hc]
  simp

/-- Witness for C6 at the spec's example language. -/
theorem c6_unsupported_language_witness :
    BookTranslator.init ("k".data) ("klingon".data) =
      Except.error (InitError.unsupportedLanguage ("klingon".data) supportedKeys) :=
  c6_unsupported_language ("k".data) ("klingon".data) (by decide) (by decide)

/-- C9: the content written by `save_translation` is exactly a two-line
header — a title line naming the target language, then a sixty-character
separator line of `=` signs — followed by a blank line and the body; and
with no filename given the output name is derived deterministically from
the fixed title and the target language identifier. -/
theorem c9_sink_shape (key body : List Char) (h : '\n' ∉ langDisplay key) :
    splitOnChar '\n' (savedContent key body) =
      headerTitle key :: List.replicate 60 '=' :: [] :: splitOnChar '\n' body ∧
    (save_translation key body none).1 = "output/".data ++ defaultFilename key ∧
    defaultFilename key =
      "the_art_of_public_speaking_translated_".data ++ key ++ ".txt".data := by
  refine ⟨?_, rfl, rfl⟩
  have hht : '\n' ∉ headerTitle key := by
    unfold headerTitle
    intro hm
    rcases List.mem_append.mp hm with hm | hm
    · exact (by decide : '\n' ∉ "The Art of Public Speaking - Translated to ".data) hm
    · exact h hm
  have hrep : '\n' ∉ List.replicate 60 '=' := by
    intro hm
    have := List.eq_of_mem_replicate hm
    simp at this
  have e1 : savedContent key body =
      headerTitle key ++ '\n' :: (List.replicate 60 '=' ++ '\n' :: ('\n' :: body)) := by
    unfold savedContent
    rw [show ("\n\n".data : List Char) = '\n' :: '\n' :: [] from by decide]
    simp
  rw [e1, splitOnChar_append '\n' (headerTitle key) _,
    splitOnChar_sepFree '\n' (headerTitle key) hht,
    splitOnChar_append '\n' (List.replicate 60 '=') _,
    splitOnChar_sepFree '\n' (List.replicate 60 '=') hrep]
  show [headerTitle key] ++ ([List.replicate 60 '='] ++ splitOnChar '\n' ('\n' :: body)) = _
  have e2 : splitOnChar '\n' ('\n' :: body) = [] :: splitOnChar '\n' body := by
    show (if '\n' == '\n' then [] :: splitOnChar '\n' body else _) = [] :: splitOnChar '\n' body
    rw [if_pos (by decide)]
  rw [e2]
  simp

/-- Witness for C9 at a supported language key. -/
theorem c9_sink_shape_witness :
    splitOnChar '\n' (savedContent ("thai".data) ("xyz".data)) =
      headerTitle ("thai".data) :: List.replicate 60 '=' :: [] ::
        splitOnChar '\n' ("xyz".data) ∧
    (save_translation ("thai".data) ("xyz".data) none).1 =
      "output/".data ++ defaultFilename ("thai".data) ∧
    defaultFilename ("thai".data) =
      "the_art_of_public_speaking_translated_".data ++ "thai".data ++ ".txt".data :=
  c9_sink_shape ("thai".data) ("xyz".data) (by decide)
